import Mathlib

/-!
Shallow embedding of the two core algorithms of `cargo-downgrade`
(`src/lib.rs`): the leveled graph traversal `get_dependencies` and the
version-selection function `find_appropriate_version`, together with the
batch driver `get_downgraded_dependencies`, and theorems settling the
stated properties of these functions.
-/

namespace CargoDowngrade

/-- One published version of a crate as returned by the crates.io client:
a version identifier `num`, a publish instant `updated_at` (modelled as an
integer point on the time line; only its linear order and its rendering are
used by the code), and the `yanked` flag. These are the fields of
`crates_io_api::Version` read by `find_appropriate_version`. -/
structure Version where
  num : String
  updated_at : Int
  yanked : Bool
deriving DecidableEq

/-- `Package` from `src/lib.rs`: a crate name together with the chosen
version identifier. -/
structure Package where
  name : String
  version : String
deriving DecidableEq

/-- The key ordering used by `versions.sort_unstable_by_key(|version| version.updated_at)`:
comparison of publish instants. -/
def byDate (a b : Version) : Prop := a.updated_at ≤ b.updated_at

instance : DecidableRel byDate :=
  fun a b => inferInstanceAs (Decidable (a.updated_at ≤ b.updated_at))

instance : IsTotal Version byDate := ⟨fun a b => Int.le_total a.updated_at b.updated_at⟩

instance : IsTrans Version byDate := ⟨fun _ _ _ h₁ h₂ => le_trans h₁ h₂⟩

/-- `versions.sort_unstable_by_key(|version| version.updated_at)`: the list
sorted ascending by publish date. The model fixes one arrangement sorted by
this key, as Rust's unstable sort also produces some such arrangement. -/
def sortByDate (versions : List Version) : List Version :=
  List.insertionSort byDate versions

/-- Rendering of a publish instant by `version.updated_at.format("%Y-%m-%d")`;
the model renders the abstract instant directly. -/
def formatDate (t : Int) : String := toString t

/-- The error string built in the `None` arm of `find_appropriate_version`:
it names the crate and appends either the oldest unyanked version with its
date or the text for "no unyanked versions at all". -/
def noVersionMsg (crate_name : String) (oldest : Option Version) : String :=
  "No version of crate " ++ crate_name ++
    " found before date. Oldest unyanked version is: " ++
    (match oldest with
     | some v => v.num ++ " (" ++ formatDate v.updated_at ++ ")"
     | none => "no known versions at all?")

/-- `find_appropriate_version` from `src/lib.rs`: sort the versions ascending
by publish date, then scan from the most recent backward (`iter().rev().find`)
for the first version published strictly before `date` whose `yanked` flag is
false; on failure, report the first unyanked entry of the sorted list (the
oldest unyanked version) inside the error message. -/
def find_appropriate_version (crate_name : String) (versions : List Version)
    (date : Int) : Except String Package :=
  let sorted := sortByDate versions
  match sorted.reverse.find? (fun v => decide (v.updated_at < date) && !v.yanked) with
  | some v => .ok { version := v.num, name := crate_name }
  | none => .error (noVersionMsg crate_name (sorted.find? (fun v => !v.yanked)))

/-- `get_downgraded_dependencies` from `src/lib.rs`, with the crates.io call
`cratesio_api_client.get_crate(crate_name)` abstracted as the oracle `fetch`.
The `?` on the fetch propagates a fetch error immediately; a
`find_appropriate_version` error is only logged and the crate is skipped. -/
def get_downgraded_dependencies (fetch : String → Except String (List Version))
    (crate_names : List String) (date : Int) : Except String (List Package) :=
  match crate_names with
  | [] => .ok []
  | n :: rest =>
    match fetch n with
    | .error e => .error e
    | .ok versions =>
      match find_appropriate_version n versions date with
      | .ok p => (get_downgraded_dependencies fetch rest date).map (fun l => p :: l)
      | .error _ => get_downgraded_dependencies fetch rest date

/-- The dependency graph exactly as `get_dependencies` consumes it through the
petgraph interface of `cargo_lock::dependency::Tree`: the enumeration of nodes
without incoming edges (`externals(Direction::Incoming)`), the outgoing
neighbor enumeration (`neighbors_directed(_, Direction::Outgoing)`), and each
node's crate name (`graph()[idx].name`). Nodes are indices. -/
structure Graph where
  roots : List Nat
  adj : Nat → List Nat
  name : Nat → String

/-- The `while !worklist.is_empty()` loop of `get_dependencies`. The `fuel`
argument bounds the recursion; `get_dependencies` supplies fuel `256`, which
theorem `getDepsLoop_congr` shows is never exhausted because the `u8` level
counter breaks the loop at level `255` (`level.checked_add(1)` returning
`None`). The `some` branch models the `level >= dependency_level` early
return, the `none` branch the `crate_names.extend(..)` accumulation; neither
happens at level `0`. -/
def getDepsLoop (g : Graph) (dl : Option Nat) :
    Nat → List Nat → Nat → Finset String → Finset String
  | 0, _, _, acc => acc
  | fuel + 1, worklist, level, acc =>
    if worklist = [] then acc
    else
      let current : Finset String := (worklist.map g.name).toFinset
      let next : List Nat := worklist.flatMap g.adj
      match dl with
      | some d =>
        if 0 < level ∧ d ≤ level then current
        else if level = 255 then acc
        else getDepsLoop g dl fuel next (level + 1) acc
      | none =>
        let acc' := if 0 < level then acc ∪ current else acc
        if level = 255 then acc'
        else getDepsLoop g dl fuel next (level + 1) acc'

/-- `get_dependencies` from `src/lib.rs`: breadth-first, level-synchronous
walk from the externals, returning the requested level's name set
(`dependency_level = Some d`) or the union of all levels `≥ 1` reached before
the `u8` level counter would overflow (`dependency_level = None`). -/
def get_dependencies (dl : Option Nat) (g : Graph) : Finset String :=
  getDepsLoop g dl 256 g.roots 0 ∅

/-- The set of nodes reachable from a root by a directed walk of exactly `k`
edges: the breadth-first frontier of `get_dependencies` at level `k` (without
a visited set, so a node reappears at every walk length that reaches it). -/
def frontier (g : Graph) : Nat → Finset Nat
  | 0 => g.roots.toFinset
  | k + 1 => (frontier g k).biUnion fun v => (g.adj v).toFinset

/-- The crate names of a set of graph nodes. -/
def namesOf (g : Graph) (s : Finset Nat) : Finset String := s.image g.name

/-- Union of the frontier name sets over levels `lo` to `hi`. -/
def levelsUnion (g : Graph) (lo hi : Nat) : Finset String :=
  (Finset.Icc lo hi).biUnion fun k => namesOf g (frontier g k)

/-- The names of the nodes whose shortest distance from a root is exactly
`d`: they lie on the frontier at level `d` and on no earlier frontier. -/
def shortestLevelNames (g : Graph) (d : Nat) : Finset String :=
  namesOf g ((frontier g d).filter fun v => ∀ k < d, v ∉ frontier g k)

/-- The spec's scenario graph: roots `{A}`, `A → {B, C}`, `B → {D}`. -/
def gDemo : Graph where
  roots := [0]
  adj v := if v = 0 then [1, 2] else if v = 1 then [3] else []
  name v := if v = 0 then "A" else if v = 1 then "B" else if v = 2 then "C" else "D"

/-- A diamond: root `A`, edges `A → B`, `A → C`, `B → C`. Node `C` has
shortest distance 1 from the root but also lies on a walk of length 2. -/
def gDiamond : Graph where
  roots := [0]
  adj v := if v = 0 then [1, 2] else if v = 1 then [2] else []
  name v := if v = 0 then "A" else if v = 1 then "B" else "C"

/-- A two-node graph whose root and dependency share the crate name `"A"`
(a lockfile may contain a dependency on a different version of a crate with
the same name as a workspace member). -/
def gShared : Graph where
  roots := [0]
  adj v := if v = 0 then [1] else []
  name _ := "A"

/-- A chain `0 → 1 → ⋯ → 256` of 257 nodes: deep enough that the `u8` level
counter trips before level 256 is reached. Names are pairwise distinct. -/
def gChain : Graph where
  roots := [0]
  adj v := if v < 256 then [v + 1] else []
  name v := String.mk (List.replicate v 'a')

/-- A registry oracle whose fetch fails for crate `"b"` and succeeds with one
pickable version for every other crate. -/
def fetchDemo : String → Except String (List Version) :=
  fun n => if n = "b" then .error "boom" else .ok [⟨"1.0.0", 0, false⟩]

example :
    find_appropriate_version "x"
      [⟨"1.0.0", 10, false⟩, ⟨"1.0.1", 20, false⟩, ⟨"1.0.2", 30, true⟩] 25 =
      .ok ⟨"x", "1.0.1"⟩ := by rfl

example :
    find_appropriate_version "x" [⟨"1.0.0", 10, false⟩] 5 =
      .error (noVersionMsg "x" (some ⟨"1.0.0", 10, false⟩)) := by rfl

example : get_dependencies (some 1) gDemo = {"B", "C"} := by decide
example : get_dependencies (some 2) gDemo = {"D"} := by decide
example : get_dependencies none gDemo = {"B", "C", "D"} := by decide
example : get_dependencies (some 3) gDemo = ∅ := by decide

/-! ### List/Finset bridges and frontier facts -/

lemma toFinset_flatMap (f : Nat → List Nat) (l : List Nat) :
    (l.flatMap f).toFinset = l.toFinset.biUnion (fun v => (f v).toFinset) := by
  ext x
  simp [List.mem_flatMap]

lemma toFinset_map_names (g : Graph) (l : List Nat) :
    (l.map g.name).toFinset = l.toFinset.image g.name := by
  ext s
  simp

lemma frontier_succ_empty {g : Graph} {k : Nat} (h : frontier g k = ∅) :
    frontier g (k + 1) = ∅ := by
  simp [frontier, h]

lemma frontier_empty_mono {g : Graph} {k m : Nat} (hkm : k ≤ m) (h : frontier g k = ∅) :
    frontier g m = ∅ := by
  obtain ⟨n, rfl⟩ := Nat.exists_eq_add_of_le hkm
  clear hkm
  induction n with
  | zero => exact h
  | succ n ih => exact frontier_succ_empty ih

lemma levelsUnion_eq_empty {g : Graph} {lo hi : Nat} (h : frontier g lo = ∅) :
    levelsUnion g lo hi = ∅ := by
  rw [Finset.eq_empty_iff_forall_not_mem]
  intro s hs
  rw [levelsUnion, Finset.mem_biUnion] at hs
  obtain ⟨k, hk, hsk⟩ := hs
  rw [Finset.mem_Icc] at hk
  rw [namesOf, frontier_empty_mono hk.1 h] at hsk
  simp at hsk

lemma levelsUnion_succ_left {g : Graph} {lo hi : Nat} (h : lo ≤ hi) :
    levelsUnion g lo hi = namesOf g (frontier g lo) ∪ levelsUnion g (lo + 1) hi := by
  rw [levelsUnion, levelsUnion, Nat.Icc_succ_left, ← Finset.Ioc_insert_left h,
    Finset.biUnion_insert]

lemma levelsUnion_self {g : Graph} (k : Nat) :
    levelsUnion g k k = namesOf g (frontier g k) := by
  rw [levelsUnion, Finset.Icc_self, Finset.singleton_biUnion]

/-! ### Characterizing the traversal loop -/

lemma getDepsLoop_succ_some (g : Graph) (d fuel : Nat) (wl : List Nat) (level : Nat)
    (acc : Finset String) :
    getDepsLoop g (some d) (fuel + 1) wl level acc =
      if wl = [] then acc
      else if 0 < level ∧ d ≤ level then (wl.map g.name).toFinset
      else if level = 255 then acc
      else getDepsLoop g (some d) fuel (wl.flatMap g.adj) (level + 1) acc := rfl

lemma getDepsLoop_succ_none (g : Graph) (fuel : Nat) (wl : List Nat) (level : Nat)
    (acc : Finset String) :
    getDepsLoop g none (fuel + 1) wl level acc =
      if wl = [] then acc
      else if level = 255 then
        (if 0 < level then acc ∪ (wl.map g.name).toFinset else acc)
      else getDepsLoop g none fuel (wl.flatMap g.adj) (level + 1)
        (if 0 < level then acc ∪ (wl.map g.name).toFinset else acc) := rfl

lemma getDepsLoop_some_eq (g : Graph) (d : Nat) (hd : 1 ≤ d) (hd255 : d ≤ 255) :
    ∀ fuel level wl, level ≤ d → d < level + fuel →
      wl.toFinset = frontier g level →
      getDepsLoop g (some d) fuel wl level ∅ = namesOf g (frontier g d) := by
  intro fuel
  induction fuel with
  | zero => intro level wl hld hdf _; omega
  | succ fuel ih =>
    intro level wl hld hdf hwl
    rw [getDepsLoop_succ_some]
    by_cases hemp : wl = []
    · have h0 : frontier g level = ∅ := by rw [← hwl, hemp]; rfl
      rw [frontier_empty_mono hld h0, if_pos hemp]
      simp [namesOf]
    · rw [if_neg hemp]
      by_cases hle : d ≤ level
      · have hrun : d = level := le_antisymm hle hld
        rw [if_pos ⟨lt_of_lt_of_le hd hle, hle⟩, toFinset_map_names, hwl, namesOf, hrun]
      · have hcond : ¬(0 < level ∧ d ≤ level) := fun hc => hle hc.2
        have h255 : level ≠ 255 := by omega
        rw [if_neg hcond, if_neg h255]
        refine ih (level + 1) (wl.flatMap g.adj) (by omega) (by omega) ?_
        rw [toFinset_flatMap, hwl]
        rfl

lemma getDepsLoop_none_eq (g : Graph) :
    ∀ fuel level wl acc, 1 ≤ level → level ≤ 255 → 255 < level + fuel →
      wl.toFinset = frontier g level →
      getDepsLoop g none fuel wl level acc = acc ∪ levelsUnion g level 255 := by
  intro fuel
  induction fuel with
  | zero => intro level wl acc h1 h255 hf _; omega
  | succ fuel ih =>
    intro level wl acc h1 h255 hf hwl
    rw [getDepsLoop_succ_none]
    by_cases hemp : wl = []
    · have h0 : frontier g level = ∅ := by rw [← hwl, hemp]; rfl
      rw [levelsUnion_eq_empty h0, Finset.union_empty, if_pos hemp]
    · have hpos : 0 < level := h1
      have hcur : (wl.map g.name).toFinset = namesOf g (frontier g level) := by
        rw [toFinset_map_names, hwl, namesOf]
      rw [if_neg hemp, if_pos hpos]
      by_cases h255eq : level = 255
      · rw [if_pos h255eq, hcur, h255eq, levelsUnion_self]
      · rw [if_neg h255eq]
        rw [ih (level + 1) (wl.flatMap g.adj) _ (by omega) (by omega) (by omega)
          (by rw [toFinset_flatMap, hwl]; rfl)]
        rw [hcur, levelsUnion_succ_left h255, Finset.union_assoc]

lemma getDeps_some_frontier (g : Graph) (d : Nat) (hd : 1 ≤ d) (hd255 : d ≤ 255) :
    get_dependencies (some d) g = namesOf g (frontier g d) := by
  rw [get_dependencies, show (256 : Nat) = 255 + 1 from rfl, getDepsLoop_succ_some]
  by_cases hemp : g.roots = []
  · have h0 : frontier g 0 = ∅ := by rw [frontier, hemp]; rfl
    rw [frontier_empty_mono (Nat.zero_le d) h0, if_pos hemp]
    simp [namesOf]
  · rw [if_neg hemp, if_neg (by omega : ¬(0 < 0 ∧ d ≤ 0)), if_neg (by omega : (0 : Nat) ≠ 255)]
    exact getDepsLoop_some_eq g d hd hd255 255 1 _ hd (by omega)
      (by rw [toFinset_flatMap]; rfl)

lemma getDeps_none_levels (g : Graph) :
    get_dependencies none g = levelsUnion g 1 255 := by
  rw [get_dependencies, show (256 : Nat) = 255 + 1 from rfl, getDepsLoop_succ_none]
  by_cases hemp : g.roots = []
  · have h0 : frontier g 0 = ∅ := by rw [frontier, hemp]; rfl
    rw [levelsUnion_eq_empty (frontier_empty_mono (by omega) h0), if_pos hemp]
  · rw [if_neg hemp, if_neg (by omega : (0 : Nat) ≠ 255), if_neg (by omega : ¬(0 : Nat) < 0)]
    rw [getDepsLoop_none_eq g 255 1 _ ∅ le_rfl (by omega) (by omega)
      (by rw [toFinset_flatMap]; rfl), Finset.empty_union]

lemma getDepsLoop_fuel_congr (g : Graph) (dl : Option Nat) :
    ∀ f₁ f₂ level wl acc, level ≤ 255 → 255 < level + f₁ → 255 < level + f₂ →
      getDepsLoop g dl f₁ wl level acc = getDepsLoop g dl f₂ wl level acc := by
  intro f₁
  induction f₁ with
  | zero => intro f₂ level wl acc h255 hf₁ _; omega
  | succ f₁ ih =>
    intro f₂ level wl acc h255 hf₁ hf₂
    match f₂ with
    | 0 => omega
    | f₂ + 1 =>
      cases dl with
      | some d =>
        rw [getDepsLoop_succ_some, getDepsLoop_succ_some]
        by_cases hemp : wl = []
        · rw [if_pos hemp, if_pos hemp]
        · rw [if_neg hemp, if_neg hemp]
          by_cases hcond : 0 < level ∧ d ≤ level
          · rw [if_pos hcond, if_pos hcond]
          · rw [if_neg hcond, if_neg hcond]
            by_cases h255eq : level = 255
            · rw [if_pos h255eq, if_pos h255eq]
            · rw [if_neg h255eq, if_neg h255eq]
              exact ih f₂ (level + 1) _ _ (by omega) (by omega) (by omega)
      | none =>
        rw [getDepsLoop_succ_none, getDepsLoop_succ_none]
        by_cases hemp : wl = []
        · rw [if_pos hemp, if_pos hemp]
        · rw [if_neg hemp, if_neg hemp]
          by_cases h255eq : level = 255
          · rw [if_pos h255eq, if_pos h255eq]
          · rw [if_neg h255eq, if_neg h255eq]
            exact ih f₂ (level + 1) _ _ (by omega) (by omega) (by omega)

lemma getDepsLoop_mem_adj_target (g : Graph) (dl : Option Nat) :
    ∀ fuel wl level acc s,
      (∀ t ∈ acc, ∃ u v, v ∈ g.adj u ∧ g.name v = t) →
      (0 < level → ∀ v ∈ wl, ∃ u, v ∈ g.adj u) →
      s ∈ getDepsLoop g dl fuel wl level acc →
      ∃ u v, v ∈ g.adj u ∧ g.name v = s := by
  intro fuel
  induction fuel with
  | zero =>
    intro wl level acc s hacc _ hs
    exact hacc s hs
  | succ fuel ih =>
    intro wl level acc s hacc hwl hs
    have hnext : 0 < level + 1 → ∀ v ∈ wl.flatMap g.adj, ∃ u, v ∈ g.adj u := by
      intro _ v hv
      rw [List.mem_flatMap] at hv
      obtain ⟨u, _, hvu⟩ := hv
      exact ⟨u, hvu⟩
    have hcur : 0 < level → ∀ t ∈ (wl.map g.name).toFinset,
        ∃ u v, v ∈ g.adj u ∧ g.name v = t := by
      intro hpos t ht
      rw [List.mem_toFinset, List.mem_map] at ht
      obtain ⟨v, hv, rfl⟩ := ht
      obtain ⟨u, hu⟩ := hwl hpos v hv
      exact ⟨u, v, hu, rfl⟩
    cases dl with
    | some d =>
      rw [getDepsLoop_succ_some] at hs
      by_cases hemp : wl = []
      · exact hacc s (by rwa [if_pos hemp] at hs)
      · rw [if_neg hemp] at hs
        by_cases hcond : 0 < level ∧ d ≤ level
        · rw [if_pos hcond] at hs
          exact hcur hcond.1 s hs
        · rw [if_neg hcond] at hs
          by_cases h255eq : level = 255
          · exact hacc s (by rwa [if_pos h255eq] at hs)
          · rw [if_neg h255eq] at hs
            exact ih _ _ _ s hacc hnext hs
    | none =>
      rw [getDepsLoop_succ_none] at hs
      have hacc' : ∀ t ∈ (if 0 < level then acc ∪ (wl.map g.name).toFinset else acc),
          ∃ u v, v ∈ g.adj u ∧ g.name v = t := by
        intro t ht
        by_cases hpos : 0 < level
        · rw [if_pos hpos, Finset.mem_union] at ht
          rcases ht with ht | ht
          · exact hacc t ht
          · exact hcur hpos t ht
        · exact hacc t (by rwa [if_neg hpos] at ht)
      by_cases hemp : wl = []
      · exact hacc s (by rwa [if_pos hemp] at hs)
      · rw [if_neg hemp] at hs
        by_cases h255eq : level = 255
        · exact hacc' s (by rwa [if_pos h255eq] at hs)
        · rw [if_neg h255eq] at hs
          exact ih _ _ _ s hacc' hnext hs

/-! ### Facts about the sorted version list and `find?` -/

lemma sortByDate_sorted (versions : List Version) :
    (sortByDate versions).Sorted byDate :=
  List.sorted_insertionSort byDate versions

lemma mem_sortByDate {versions : List Version} {v : Version} :
    v ∈ sortByDate versions ↔ v ∈ versions :=
  List.mem_insertionSort byDate

lemma find_desc_max {p : Version → Bool} :
    ∀ {l : List Version}, l.Pairwise (fun a b => b.updated_at ≤ a.updated_at) →
      ∀ {v}, l.find? p = some v →
      ∀ w ∈ l, p w = true → w.updated_at ≤ v.updated_at := by
  intro l
  induction l with
  | nil => intro _ v h; simp at h
  | cons x t ih =>
    intro hp v hfind w hw hpw
    by_cases hx : p x = true
    · rw [List.find?_cons_of_pos _ hx, Option.some_inj] at hfind
      rcases List.mem_cons.mp hw with rfl | hwt
      · rw [hfind]
      · rw [← hfind]
        exact (List.pairwise_cons.mp hp).1 w hwt
    · rw [List.find?_cons_of_neg _ (by simpa using hx)] at hfind
      rcases List.mem_cons.mp hw with rfl | hwt
      · exact absurd hpw hx
      · exact ih (List.pairwise_cons.mp hp).2 hfind w hwt hpw

lemma find_asc_min {p : Version → Bool} :
    ∀ {l : List Version}, l.Sorted byDate →
      ∀ {v}, l.find? p = some v →
      ∀ w ∈ l, p w = true → v.updated_at ≤ w.updated_at := by
  intro l
  induction l with
  | nil => intro _ v h; simp at h
  | cons x t ih =>
    intro hp v hfind w hw hpw
    by_cases hx : p x = true
    · rw [List.find?_cons_of_pos _ hx, Option.some_inj] at hfind
      rcases List.mem_cons.mp hw with rfl | hwt
      · rw [hfind]
      · rw [← hfind]
        exact (List.pairwise_cons.mp hp).1 w hwt
    · rw [List.find?_cons_of_neg _ (by simpa using hx)] at hfind
      rcases List.mem_cons.mp hw with rfl | hwt
      · exact absurd hpw hx
      · exact ih (List.pairwise_cons.mp hp).2 hfind w hwt hpw

lemma reverse_pairwise_of_sorted {l : List Version} (hs : l.Sorted byDate) :
    l.reverse.Pairwise (fun a b => b.updated_at ≤ a.updated_at) := by
  rw [List.pairwise_reverse]
  exact hs

/-- Two lists that are permutations of each other, both sorted by publish
date, with pairwise-distinct publish dates, are equal: with distinct keys the
sorted arrangement is unique. -/
lemma sorted_eq_of_perm_of_nodup_dates :
    ∀ {l₁ l₂ : List Version}, l₁.Perm l₂ → l₁.Sorted byDate → l₂.Sorted byDate →
      (l₂.map Version.updated_at).Nodup → l₁ = l₂ := by
  intro l₁
  induction l₁ with
  | nil => intro l₂ hp _ _ _; exact hp.nil_eq
  | cons a t ih =>
    intro l₂ hp hs₁ hs₂ hnd
    match l₂ with
    | [] => exact absurd hp.symm.nil_eq (by simp)
    | b :: t₂ =>
      have hab : a = b := by
        rcases List.mem_cons.mp (hp.subset (List.mem_cons_self a t)) with h | hat₂
        · exact h
        rcases List.mem_cons.mp (hp.symm.subset (List.mem_cons_self b t₂)) with h | hbt
        · exact h.symm
        have h₁ : a.updated_at ≤ b.updated_at :=
          (List.pairwise_cons.mp hs₁).1 b hbt
        have h₂ : b.updated_at ≤ a.updated_at :=
          (List.pairwise_cons.mp hs₂).1 a hat₂
        have heq : a.updated_at = b.updated_at := le_antisymm h₁ h₂
        exfalso
        have hmem : b.updated_at ∈ t₂.map Version.updated_at :=
          List.mem_map.mpr ⟨a, hat₂, heq⟩
        exact (List.nodup_cons.mp hnd).1 hmem
      subst hab
      have ht : t = t₂ := ih hp.cons_inv (List.pairwise_cons.mp hs₁).2
        (List.pairwise_cons.mp hs₂).2 (List.nodup_cons.mp hnd).2
      rw [ht]

/-! ### The deep chain graph -/

lemma gChain_frontier : ∀ k, k ≤ 256 → frontier gChain k = {k} := by
  intro k
  induction k with
  | zero => intro _; rfl
  | succ k ih =>
    intro hk
    rw [frontier, ih (by omega), Finset.singleton_biUnion]
    have : gChain.adj k = [k + 1] := by
      rw [gChain]
      simp only
      rw [if_pos (by omega : k < 256)]
    rw [this]
    rfl

lemma gChain_name_injective {v w : Nat} (h : gChain.name v = gChain.name w) : v = w := by
  have hd : (String.mk (List.replicate v 'a')).data =
      (String.mk (List.replicate w 'a')).data := congrArg String.data h
  simpa using congrArg List.length hd

lemma fav_eq_ok {crate_name : String} {versions : List Version} {date : Int}
    {v : Version}
    (hfind : (sortByDate versions).reverse.find?
      (fun v => decide (v.updated_at < date) && !v.yanked) = some v) :
    find_appropriate_version crate_name versions date = .ok ⟨crate_name, v.num⟩ := by
  simp only [find_appropriate_version]
  rw [hfind]

lemma fav_eq_error {crate_name : String} {versions : List Version} {date : Int}
    (hfind : (sortByDate versions).reverse.find?
      (fun v => decide (v.updated_at < date) && !v.yanked) = none) :
    find_appropriate_version crate_name versions date =
      .error (noVersionMsg crate_name
        ((sortByDate versions).find? (fun v => !v.yanked))) := by
  simp only [find_appropriate_version]
  rw [hfind]

/-! ### The claims -/

/-- C1: whenever `find_appropriate_version` returns a package, the chosen
version is one of the input records, its publish timestamp is strictly
earlier than the cutoff, its yanked flag is false, and no other unyanked
version published strictly before the cutoff has a later timestamp. -/
theorem spec_C1 (crate_name : String) (versions : List Version) (date : Int)
    (pkg : Package)
    (h : find_appropriate_version crate_name versions date = .ok pkg) :
    ∃ v ∈ versions, pkg = ⟨crate_name, v.num⟩ ∧ v.updated_at < date ∧
      v.yanked = false ∧
      ∀ w ∈ versions, w.updated_at < date → w.yanked = false →
        w.updated_at ≤ v.updated_at := by
  simp only [find_appropriate_version] at h
  cases hfind : (sortByDate versions).reverse.find?
      (fun v => decide (v.updated_at < date) && !v.yanked) with
  | none =>
    rw [hfind] at h
    exact absurd h (by simp)
  | some v =>
    rw [hfind] at h
    have hpkg : pkg = ⟨crate_name, v.num⟩ := by
      simpa [eq_comm] using h
    have hv : v ∈ versions :=
      mem_sortByDate.mp (List.mem_reverse.mp (List.mem_of_find?_eq_some hfind))
    have hpv := List.find?_some hfind
    simp only [Bool.and_eq_true, decide_eq_true_eq, Bool.not_eq_eq_eq_not,
      Bool.not_true] at hpv
    refine ⟨v, hv, hpkg, hpv.1, hpv.2, ?_⟩
    intro w hw hwd hwy
    exact find_desc_max (reverse_pairwise_of_sorted (sortByDate_sorted versions))
      hfind w (List.mem_reverse.mpr (mem_sortByDate.mpr hw))
      (by simp [hwd, hwy])

theorem spec_C1_witness :
    ∃ v ∈ [(⟨"1.0.0", 10, false⟩ : Version)],
      (⟨"x", "1.0.0"⟩ : Package) = ⟨"x", v.num⟩ ∧ v.updated_at < 20 ∧
      v.yanked = false ∧
      ∀ w ∈ [(⟨"1.0.0", 10, false⟩ : Version)], w.updated_at < 20 →
        w.yanked = false → w.updated_at ≤ v.updated_at :=
  spec_C1 "x" [⟨"1.0.0", 10, false⟩] 20 ⟨"x", "1.0.0"⟩ rfl

/-- C4: `find_appropriate_version` fails exactly when no version in the list
is both unyanked and published strictly before the cutoff; the comparison is
strict, so a version published exactly at the cutoff never qualifies. -/
theorem spec_C4 (crate_name : String) (versions : List Version) (date : Int) :
    (∃ e, find_appropriate_version crate_name versions date = .error e) ↔
      ∀ v ∈ versions, ¬(v.updated_at < date ∧ v.yanked = false) := by
  cases hfind : (sortByDate versions).reverse.find?
      (fun v => decide (v.updated_at < date) && !v.yanked) with
  | some v =>
    rw [fav_eq_ok hfind]
    constructor
    · rintro ⟨e, he⟩
      exact absurd he (by simp)
    · intro hall
      exfalso
      have hv : v ∈ versions :=
        mem_sortByDate.mp (List.mem_reverse.mp (List.mem_of_find?_eq_some hfind))
      have hpv := List.find?_some hfind
      simp only [Bool.and_eq_true, decide_eq_true_eq, Bool.not_eq_eq_eq_not,
        Bool.not_true] at hpv
      exact hall v hv hpv
  | none =>
    rw [fav_eq_error hfind]
    constructor
    · intro _ w hw hq
      have hnone := List.find?_eq_none.mp hfind w
        (List.mem_reverse.mpr (mem_sortByDate.mpr hw))
      simp only [Bool.and_eq_true, decide_eq_true_eq, Bool.not_eq_eq_eq_not,
        Bool.not_true, not_and] at hnone
      exact absurd (hnone hq.1) (by simp [hq.2])
    · intro _
      exact ⟨_, rfl⟩

/-- C9: when `find_appropriate_version` fails, the message is the
no-version message for the crate, reporting an unyanked version whose
timestamp is minimal among all unyanked versions if one exists, and the
"no known versions at all?" hint otherwise. -/
theorem spec_C9 (crate_name : String) (versions : List Version) (date : Int)
    (msg : String)
    (h : find_appropriate_version crate_name versions date = .error msg) :
    (∃ v₀ ∈ versions, v₀.yanked = false ∧
      (∀ w ∈ versions, w.yanked = false → v₀.updated_at ≤ w.updated_at) ∧
      msg = noVersionMsg crate_name (some v₀)) ∨
    ((∀ v ∈ versions, v.yanked = true) ∧ msg = noVersionMsg crate_name none) := by
  simp only [find_appropriate_version] at h
  cases hfind : (sortByDate versions).reverse.find?
      (fun v => decide (v.updated_at < date) && !v.yanked) with
  | some v =>
    rw [hfind] at h
    exact absurd h (by simp)
  | none =>
    rw [hfind] at h
    have hmsg : msg = noVersionMsg crate_name
        ((sortByDate versions).find? fun v => !v.yanked) := by
      have := h
      simp only [Except.error.injEq] at this
      exact this.symm
    cases hfo : (sortByDate versions).find? (fun v => !v.yanked) with
    | some v₀ =>
      left
      have hv₀ : v₀ ∈ versions := mem_sortByDate.mp (List.mem_of_find?_eq_some hfo)
      have hy := List.find?_some hfo
      refine ⟨v₀, hv₀, by simpa using hy, ?_, by rw [hmsg, hfo]⟩
      intro w hw hwy
      exact find_asc_min (sortByDate_sorted versions) hfo w
        (mem_sortByDate.mpr hw) (by simp [hwy])
    | none =>
      right
      refine ⟨?_, by rw [hmsg, hfo]⟩
      intro v hv
      have := List.find?_eq_none.mp hfo v (mem_sortByDate.mpr hv)
      simpa using this

theorem spec_C9_witness :
    (∃ v₀ ∈ [(⟨"1.0.0", 10, false⟩ : Version)], v₀.yanked = false ∧
      (∀ w ∈ [(⟨"1.0.0", 10, false⟩ : Version)], w.yanked = false →
        v₀.updated_at ≤ w.updated_at) ∧
      noVersionMsg "x" (some ⟨"1.0.0", 10, false⟩) = noVersionMsg "x" (some v₀)) ∨
    ((∀ v ∈ [(⟨"1.0.0", 10, false⟩ : Version)], v.yanked = true) ∧
      noVersionMsg "x" (some ⟨"1.0.0", 10, false⟩) = noVersionMsg "x" none) :=
  spec_C9 "x" [⟨"1.0.0", 10, false⟩] 5 (noVersionMsg "x" (some ⟨"1.0.0", 10, false⟩)) rfl

/-- C8 fails as stated: with two unyanked versions sharing one publish
timestamp, the two orders of the same list select different versions. -/
theorem spec_C8_counterexample :
    (([⟨"1.0.0", 0, false⟩, ⟨"2.0.0", 0, false⟩] : List Version)).Perm
        [⟨"2.0.0", 0, false⟩, ⟨"1.0.0", 0, false⟩] ∧
    find_appropriate_version "x" [⟨"1.0.0", 0, false⟩, ⟨"2.0.0", 0, false⟩] 1 ≠
      find_appropriate_version "x" [⟨"2.0.0", 0, false⟩, ⟨"1.0.0", 0, false⟩] 1 := by
  constructor
  · exact List.Perm.swap _ _ _
  · intro h
    have h1 : find_appropriate_version "x"
        [⟨"1.0.0", 0, false⟩, ⟨"2.0.0", 0, false⟩] 1 = .ok ⟨"x", "2.0.0"⟩ := rfl
    have h2 : find_appropriate_version "x"
        [⟨"2.0.0", 0, false⟩, ⟨"1.0.0", 0, false⟩] 1 = .ok ⟨"x", "1.0.0"⟩ := rfl
    rw [h1, h2] at h
    simp at h

/-- C8 (amended): on version lists whose publish timestamps are pairwise
distinct, `find_appropriate_version` is invariant under permutation of the
input list. -/
theorem spec_C8 (crate_name : String) (l₁ l₂ : List Version) (date : Int)
    (hperm : l₁.Perm l₂)
    (hnd : (l₁.map Version.updated_at).Nodup) :
    find_appropriate_version crate_name l₁ date =
      find_appropriate_version crate_name l₂ date := by
  have hnd₂ : (l₂.map Version.updated_at).Nodup :=
    (hperm.map Version.updated_at).nodup_iff.mp hnd
  have hsorteq : sortByDate l₁ = sortByDate l₂ :=
    sorted_eq_of_perm_of_nodup_dates
      ((List.perm_insertionSort byDate l₁).trans
        (hperm.trans (List.perm_insertionSort byDate l₂).symm))
      (sortByDate_sorted l₁) (sortByDate_sorted l₂)
      (((List.perm_insertionSort byDate l₂).map Version.updated_at).nodup_iff.mpr hnd₂)
  simp only [find_appropriate_version, hsorteq]

theorem spec_C8_witness :
    find_appropriate_version "x" [⟨"1.0.0", 10, false⟩, ⟨"2.0.0", 20, false⟩] 30 =
      find_appropriate_version "x" [⟨"2.0.0", 20, false⟩, ⟨"1.0.0", 10, false⟩] 30 :=
  spec_C8 "x" _ _ 30 (List.Perm.swap _ _ _) (by decide)

/-- C2 fails as stated: in the diamond graph, depth 2 returns `{"C"}` even
though node `C` is at shortest distance 1 from the root, so no node has
shortest distance 2. -/
theorem spec_C2_counterexample :
    get_dependencies (some 2) gDiamond = {"C"} ∧
    shortestLevelNames gDiamond 2 = ∅ ∧
    get_dependencies (some 2) gDiamond ≠ shortestLevelNames gDiamond 2 := by
  decide

/-- C2 (amended): for a requested depth `1 ≤ d ≤ 255`, `get_dependencies`
returns the names of the nodes reachable from a root by a directed walk of
length exactly `d` — the level-`d` frontier of a traversal that never marks
nodes visited — not the nodes at shortest distance `d`. -/
theorem spec_C2 (g : Graph) (d : Nat) (h1 : 1 ≤ d) (h255 : d ≤ 255) :
    get_dependencies (some d) g = namesOf g (frontier g d) :=
  getDeps_some_frontier g d h1 h255

theorem spec_C2_witness :
    get_dependencies (some 2) gDemo = namesOf gDemo (frontier gDemo 2) :=
  spec_C2 gDemo 2 (by decide) (by decide)

/-- C10: requesting a depth beyond the deepest nonempty level returns the
empty set, because the accumulator is never filled when a depth is requested
and the loop ends when the frontier empties. -/
theorem spec_C10 (g : Graph) (d : Nat) (h1 : 1 ≤ d) (h255 : d ≤ 255)
    (hdeep : frontier g d = ∅) :
    get_dependencies (some d) g = ∅ := by
  rw [getDeps_some_frontier g d h1 h255, hdeep, namesOf, Finset.image_empty]

theorem spec_C10_witness :
    frontier gDemo 3 = ∅ ∧ get_dependencies (some 3) gDemo = ∅ :=
  ⟨by decide, spec_C10 gDemo 3 (by decide) (by decide) (by decide)⟩

/-- C5 (amended): with no requested depth, `get_dependencies` returns the
union of the level name sets for levels 1 through 255 (levels beyond the
255th are cut off by the `u8` level counter), and this union contains every
single-depth query's result. -/
theorem spec_C5 (g : Graph) :
    get_dependencies none g = levelsUnion g 1 255 ∧
    ∀ d, 1 ≤ d → d ≤ 255 →
      get_dependencies (some d) g ⊆ get_dependencies none g := by
  refine ⟨getDeps_none_levels g, ?_⟩
  intro d h1 h255
  rw [getDeps_some_frontier g d h1 h255, getDeps_none_levels g]
  intro s hs
  rw [levelsUnion, Finset.mem_biUnion]
  exact ⟨d, Finset.mem_Icc.mpr ⟨h1, h255⟩, hs⟩

theorem spec_C5_witness :
    get_dependencies none gDemo = levelsUnion gDemo 1 255 ∧
    get_dependencies (some 2) gDemo ⊆ get_dependencies none gDemo :=
  ⟨(spec_C5 gDemo).1, (spec_C5 gDemo).2 2 (by decide) (by decide)⟩

set_option maxRecDepth 8000 in
/-- C5 fails as stated: in the 257-node chain the node at level 256 is
reachable at a level `≥ 1`, but its name is missing from the no-depth result
because the `u8` level counter stops the traversal after level 255. -/
theorem spec_C5_counterexample :
    gChain.name 256 ∈ namesOf gChain (frontier gChain 256) ∧
    gChain.name 256 ∉ get_dependencies none gChain := by
  constructor
  · rw [gChain_frontier 256 le_rfl, namesOf]
    exact Finset.mem_image_of_mem _ (Finset.mem_singleton_self 256)
  · rw [getDeps_none_levels]
    intro hmem
    rw [levelsUnion, Finset.mem_biUnion] at hmem
    obtain ⟨k, hk, hks⟩ := hmem
    rw [Finset.mem_Icc] at hk
    rw [gChain_frontier k (by omega), namesOf, Finset.mem_image] at hks
    obtain ⟨v, hv, hname⟩ := hks
    rw [Finset.mem_singleton] at hv
    subst hv
    have := gChain_name_injective hname
    omega

/-- C6 fails as stated: in `gShared` the root node 0 is named `"A"` and so is
the dependency node 1, so the root's name appears in the result. -/
theorem spec_C6_counterexample :
    0 ∈ gShared.roots ∧ gShared.name 0 ∈ get_dependencies none gShared := by
  decide

/-- C6 (amended): every name in the result names the target of some edge, so
a root's name can only appear when some dependency node shares it: if no
edge target carries the root's name, the result excludes that name — only
root nodes themselves are never contributed. -/
theorem spec_C6 (g : Graph) (dl : Option Nat) (r : Nat) (_hr : r ∈ g.roots)
    (hfresh : ∀ u v, v ∈ g.adj u → g.name v ≠ g.name r) :
    g.name r ∉ get_dependencies dl g := by
  intro hmem
  rw [get_dependencies] at hmem
  obtain ⟨u, v, hv, hname⟩ := getDepsLoop_mem_adj_target g dl 256 g.roots 0 ∅
    (g.name r) (fun t ht => absurd ht (Finset.not_mem_empty t))
    (fun h0 => absurd h0 (by omega)) hmem
  exact hfresh u v hv hname

theorem spec_C6_witness :
    0 ∈ gDemo.roots ∧ gDemo.name 0 ∉ get_dependencies none gDemo := by
  refine ⟨by decide, spec_C6 gDemo none 0 (by decide) ?_⟩
  intro u v hv
  by_cases h0 : u = 0
  · subst h0
    have hv' : v = 1 ∨ v = 2 := by simpa [gDemo] using hv
    rcases hv' with rfl | rfl <;> decide
  · by_cases h1 : u = 1
    · subst h1
      have hv' : v = 3 := by simpa [gDemo, h0] using hv
      subst hv'
      decide
    · exact absurd hv (by simp [gDemo, h0, h1])

/-- C7: the traversal terminates on every graph, cyclic ones included — its
result is unchanged by any fuel beyond the 256 iterations the `u8` level
counter permits — and at level 255 with a nonempty frontier the no-depth
traversal stops and returns the accumulated names plus the current level,
rather than looping, wrapping, or failing. -/
theorem spec_C7 (g : Graph) :
    (∀ dl f₁ f₂, 255 < f₁ → 255 < f₂ →
      getDepsLoop g dl f₁ g.roots 0 ∅ = getDepsLoop g dl f₂ g.roots 0 ∅) ∧
    (∀ fuel wl acc, wl ≠ [] →
      getDepsLoop g none (fuel + 1) wl 255 acc =
        acc ∪ (wl.map g.name).toFinset) := by
  constructor
  · intro dl f₁ f₂ h₁ h₂
    exact getDepsLoop_fuel_congr g dl f₁ f₂ 0 g.roots ∅ (by omega) (by omega)
      (by omega)
  · intro fuel wl acc hwl
    rw [getDepsLoop_succ_none, if_neg hwl, if_pos rfl, if_pos (by omega : 0 < 255)]

theorem spec_C7_witness :
    getDepsLoop gDemo none 300 gDemo.roots 0 ∅ =
      getDepsLoop gDemo none 256 gDemo.roots 0 ∅ ∧
    getDepsLoop gDemo none 1 [1] 255 ∅ = ∅ ∪ ([1].map gDemo.name).toFinset :=
  ⟨(spec_C7 gDemo).1 none 300 256 (by decide) (by decide),
   (spec_C7 gDemo).2 0 [1] ∅ (by decide)⟩

/-- C3 fails as stated: with a fetch oracle failing on `"b"`, the batch for
`["a", "b", "c"]` returns the fetch error itself — neither the already
fetched `"a"` nor the never-reached `"c"` appears in any result. -/
theorem spec_C3_counterexample :
    get_downgraded_dependencies fetchDemo ["a", "b", "c"] 5 = .error "boom" ∧
    ∀ l, get_downgraded_dependencies fetchDemo ["a", "b", "c"] 5 ≠ .ok l := by
  have h : get_downgraded_dependencies fetchDemo ["a", "b", "c"] 5 =
      .error "boom" := rfl
  refine ⟨h, ?_⟩
  intro l hl
  rw [h] at hl
  exact Except.noConfusion hl

/-- C3 (amended): when fetching one crate's version list fails, the `?`
operator aborts the whole batch with that fetch error; earlier successful
fetches are discarded and later crates are never processed. Only
`find_appropriate_version` failures are logged, skipped, and survived. -/
theorem spec_C3 (fetch : String → Except String (List Version))
    (pre post : List String) (bad : String) (date : Int) (e : String)
    (hpre : ∀ n ∈ pre, ∃ vs, fetch n = .ok vs)
    (hbad : fetch bad = .error e) :
    get_downgraded_dependencies fetch (pre ++ bad :: post) date = .error e := by
  induction pre with
  | nil =>
    rw [List.nil_append]
    simp only [get_downgraded_dependencies]
    rw [hbad]
  | cons n pre' ih =>
    obtain ⟨vs, hvs⟩ := hpre n (List.mem_cons_self n pre')
    have hrest : ∀ m ∈ pre', ∃ ws, fetch m = .ok ws :=
      fun m hm => hpre m (List.mem_cons_of_mem n hm)
    rw [List.cons_append]
    simp only [get_downgraded_dependencies]
    rw [hvs]
    show (match find_appropriate_version n vs date with
      | Except.ok p =>
        Except.map (fun l => p :: l)
          (get_downgraded_dependencies fetch (pre' ++ bad :: post) date)
      | Except.error _ =>
        get_downgraded_dependencies fetch (pre' ++ bad :: post) date) =
      Except.error e
    cases hfa : find_appropriate_version n vs date with
    | ok p =>
      show Except.map (fun l => p :: l)
        (get_downgraded_dependencies fetch (pre' ++ bad :: post) date) =
        Except.error e
      rw [ih hrest]
      rfl
    | error msg =>
      show get_downgraded_dependencies fetch (pre' ++ bad :: post) date =
        Except.error e
      exact ih hrest

theorem spec_C3_witness :
    get_downgraded_dependencies fetchDemo (["a"] ++ "b" :: ["c"]) 5 =
      .error "boom" :=
  spec_C3 fetchDemo ["a"] ["c"] "b" 5 "boom"
    (by
      intro n hn
      rw [List.mem_singleton] at hn
      subst hn
      exact ⟨[⟨"1.0.0", 0, false⟩], rfl⟩)
    rfl

end CargoDowngrade
